import Mathlib

/-!
Shallow embedding of the `geom_visualizer` repository
(`src/ts_viewer.py`, `src/structure_viewer.py`, `src/xyz_viewer.py`).

Modelling conventions:
* Python strings are modelled as `List Char`;
* Python floats are modelled as `ℚ` (the exact value of the machine float);
* a file on disk is modelled as `Option (List Char)` — `none` stands for a
  file whose open/seek/read raises an `OSError` (nonexistent or unreadable);
* every Python function embedded here keeps its source name where Lean
  permits it.
-/

namespace GeomVis

/-- Python `"\n".join(lines)`: the lines joined with a newline between
consecutive elements (no trailing newline). -/
def joinNl : List (List Char) → List Char
  | [] => []
  | [s] => s
  | s :: t :: rest => s ++ '\n' :: joinNl (t :: rest)

/-- Python `text.split("\n")`: split at every newline; the empty string
splits to `[""]`. -/
def splitNl : List Char → List (List Char)
  | [] => [[]]
  | c :: rest =>
    if c = '\n' then [] :: splitNl rest
    else
      match splitNl rest with
      | [] => [[c]]
      | h :: t => (c :: h) :: t

theorem splitNl_ne_nil (s : List Char) : splitNl s ≠ [] := by
  induction s with
  | nil => simp [splitNl]
  | cons c rest ih =>
    by_cases h : c = '\n'
    · simp [splitNl, h]
    · simp only [splitNl, h, if_false]
      cases hs : splitNl rest with
      | nil => simp
      | cons a l => simp

theorem splitNl_of_not_mem (s : List Char) (h : '\n' ∉ s) : splitNl s = [s] := by
  induction s with
  | nil => simp [splitNl]
  | cons c rest ih =>
    have hc : c ≠ '\n' := fun hc => h (by simp [hc])
    have hrest : '\n' ∉ rest := fun hm => h (by simp [hm])
    simp [splitNl, hc, ih hrest]

theorem splitNl_append_newline (s r : List Char) (h : '\n' ∉ s) :
    splitNl (s ++ '\n' :: r) = s :: splitNl r := by
  induction s with
  | nil => simp [splitNl]
  | cons c rest ih =>
    have hc : c ≠ '\n' := fun hc => h (by simp [hc])
    have hrest : '\n' ∉ rest := fun hm => h (by simp [hm])
    simp only [List.cons_append, splitNl, hc, if_false, List.append_eq]
    rw [ih hrest]

/-- Splitting the newline-join of newline-free lines recovers the lines. -/
theorem splitNl_joinNl (l : List (List Char)) (hne : l ≠ [])
    (h : ∀ s ∈ l, '\n' ∉ s) : splitNl (joinNl l) = l := by
  induction l with
  | nil => exact absurd rfl hne
  | cons s rest ih =>
    cases rest with
    | nil => exact splitNl_of_not_mem s (h s (by simp))
    | cons t r2 =>
      have hs : '\n' ∉ s := h s (by simp)
      have hrest : ∀ x ∈ t :: r2, '\n' ∉ x := fun x hx => h x (by simp [hx])
      simp only [joinNl]
      rw [splitNl_append_newline _ _ hs, ih (by simp) hrest]

/-- Python `text.replace(t, r)` for a one-character needle `t`. -/
def replaceChar (t : Char) (r : List Char) : List Char → List Char
  | [] => []
  | c :: rest => (if c = t then r else [c]) ++ replaceChar t r rest

theorem mem_replaceChar {c t : Char} {r s : List Char}
    (h : c ∈ replaceChar t r s) : c ∈ r ∨ (c ∈ s ∧ c ≠ t) := by
  induction s with
  | nil => simp [replaceChar] at h
  | cons d rest ih =>
    simp only [replaceChar, List.mem_append] at h
    rcases h with h | h
    · by_cases hd : d = t
      · simp [hd] at h; exact Or.inl h
      · simp [hd] at h
        subst h
        exact Or.inr ⟨by simp, hd⟩
    · rcases ih h with h2 | ⟨h2, h3⟩
      · exact Or.inl h2
      · exact Or.inr ⟨by simp [h2], h3⟩

theorem target_not_mem_replaceChar {t : Char} {r s : List Char}
    (h : t ∉ r) : t ∉ replaceChar t r s := by
  intro hmem
  rcases mem_replaceChar hmem with h2 | ⟨_, h3⟩
  · exact h h2
  · exact h3 rfl

theorem not_mem_replaceChar {c t : Char} {r s : List Char}
    (hs : c ∉ s) (hr : c ∉ r) : c ∉ replaceChar t r s := by
  intro hmem
  rcases mem_replaceChar hmem with h2 | ⟨h2, _⟩
  · exact hr h2
  · exact hs h2

/-- Helper for the Python `needle in haystack` substring test:
does the haystack start with the needle? -/
def startsWithStr : List Char → List Char → Bool
  | _, [] => true
  | [], _ :: _ => false
  | c :: hs, d :: ns => c = d && startsWithStr hs ns

/-- Python `needle in haystack` (substring containment). -/
def containsStr : List Char → List Char → Bool
  | [], ns => ns.isEmpty
  | c :: hs, ns => startsWithStr (c :: hs) ns || containsStr hs ns

/-! ### Decimal rendering (Python `str(n)` / `int(s)` / `f"{x:.6f}"`) -/

/-- The ASCII digit character for `d % 10`. -/
def digitChar (d : Nat) : Char := Char.ofNat (48 + d % 10)

/-- Fueled digit-string construction; fuel `n + 1` always suffices. -/
def natToCharsAux : Nat → Nat → List Char
  | 0, _ => []
  | fuel + 1, n =>
    if n < 10 then [digitChar n] else natToCharsAux fuel (n / 10) ++ [digitChar (n % 10)]

/-- Python `str(n)` for a natural number: decimal digits, no sign, no padding. -/
def natToChars (n : Nat) : List Char := natToCharsAux (n + 1) n

/-- Python `int(s)` on a string of decimal digits. -/
def decimalValue (l : List Char) : Nat := l.foldl (fun a c => a * 10 + (c.toNat - 48)) 0

theorem digitChar_toNat {m : Nat} (h : m < 10) : (digitChar m).toNat = 48 + m := by
  interval_cases m <;> decide

theorem natToCharsAux_fuel (f1 : Nat) : ∀ f2 n, n < f1 → n < f2 →
    natToCharsAux f1 n = natToCharsAux f2 n := by
  induction f1 with
  | zero => intro f2 n h1 _; omega
  | succ g ih =>
    intro f2 n h1 h2
    cases f2 with
    | zero => omega
    | succ h =>
      by_cases hn : n < 10
      · simp [natToCharsAux, hn]
      · have hdiv : n / 10 < n := Nat.div_lt_self (by omega) (by omega)
        simp only [natToCharsAux, hn, if_false]
        rw [ih h (n / 10) (by omega) (by omega)]

theorem natToChars_lt10 {n : Nat} (h : n < 10) : natToChars n = [digitChar n] := by
  simp [natToChars, natToCharsAux, h]

theorem natToChars_ge10 {n : Nat} (h : 10 ≤ n) :
    natToChars n = natToChars (n / 10) ++ [digitChar (n % 10)] := by
  have hdiv : n / 10 < n := Nat.div_lt_self (by omega) (by omega)
  show natToCharsAux (n + 1) n = _
  rw [show natToCharsAux (n + 1) n = natToCharsAux n (n / 10) ++ [digitChar (n % 10)] from by
    rw [natToCharsAux]
    simp [Nat.not_lt.mpr h]]
  rw [natToCharsAux_fuel n (n / 10 + 1) (n / 10) (by omega) (by omega)]
  rfl

theorem natToChars_ne_nil (n : Nat) : natToChars n ≠ [] := by
  by_cases h : n < 10
  · simp [natToChars_lt10 h]
  · rw [natToChars_ge10 (Nat.not_lt.mp h)]
    simp

/-- Every character of `natToChars n` is an ASCII decimal digit. -/
theorem mem_natToChars_digit (n : Nat) :
    ∀ c ∈ natToChars n, 48 ≤ c.toNat ∧ c.toNat ≤ 57 := by
  induction n using Nat.strong_induction_on with
  | _ n ih =>
    by_cases h : n < 10
    · intro c hc
      rw [natToChars_lt10 h] at hc
      simp at hc
      subst hc
      rw [digitChar_toNat h]
      omega
    · intro c hc
      rw [natToChars_ge10 (by omega)] at hc
      rcases List.mem_append.mp hc with h2 | h2
      · exact ih (n / 10) (Nat.div_lt_self (by omega) (by omega)) c h2
      · simp at h2
        subst h2
        have hm : n % 10 < 10 := Nat.mod_lt _ (by omega)
        rw [digitChar_toNat hm]
        omega

theorem decimalValue_foldl_acc (l : List Char) : ∀ a : Nat,
    l.foldl (fun a c => a * 10 + (c.toNat - 48)) a
      = a * 10 ^ l.length + decimalValue l := by
  induction l with
  | nil => intro a; simp [decimalValue]
  | cons c t ih =>
    intro a
    simp only [List.foldl_cons, List.length_cons, decimalValue]
    rw [ih (a * 10 + (c.toNat - 48)), ih (0 * 10 + (c.toNat - 48))]
    ring

/-- `int ∘ str = id`: the decimal string of `n` parses back to `n`. -/
theorem decimalValue_natToChars (n : Nat) : decimalValue (natToChars n) = n := by
  induction n using Nat.strong_induction_on with
  | _ n ih =>
    by_cases h : n < 10
    · rw [natToChars_lt10 h]
      simp [decimalValue, digitChar_toNat h]
    · rw [natToChars_ge10 (by omega)]
      have hdiv : n / 10 < n := Nat.div_lt_self (by omega) (by omega)
      simp only [decimalValue, List.foldl_append]
      rw [show (natToChars (n / 10)).foldl (fun a c => a * 10 + (c.toNat - 48)) 0
            = decimalValue (natToChars (n / 10)) from rfl, ih (n / 10) hdiv]
      simp only [List.foldl_cons, List.foldl_nil]
      rw [digitChar_toNat (Nat.mod_lt _ (by omega))]
      omega

/-- A number below `10 ^ k` renders to at most `k` digits (`1 ≤ k`). -/
theorem natToChars_length_le (k : Nat) : ∀ n, n < 10 ^ k → 1 ≤ k →
    (natToChars n).length ≤ k := by
  intro n
  induction n using Nat.strong_induction_on generalizing k with
  | _ n ih =>
    intro hn hk
    by_cases h : n < 10
    · rw [natToChars_lt10 h]; simpa using hk
    · have hdiv : n / 10 < n := Nat.div_lt_self (by omega) (by omega)
      have hk2 : 2 ≤ k := by
        rcases Nat.lt_or_ge k 2 with hlt | hge
        · exfalso
          interval_cases k
          simp at hn
          omega
        · exact hge
      have hpow : 10 ^ (k - 1) * 10 = 10 ^ k := by
        rw [← pow_succ]
        congr 1
        omega
      have hb : n / 10 < 10 ^ (k - 1) :=
        Nat.div_lt_of_lt_mul (by rw [mul_comm]; exact lt_of_lt_of_eq hn hpow.symm)
      rw [natToChars_ge10 (Nat.not_lt.mp h)]
      have hlen := ih (n / 10) hdiv (k - 1) hb (by omega)
      simp only [List.length_append, List.length_cons, List.length_nil]
      omega

/-- Round half to even on an exact rational value (the rounding used by
Python's fixed-point float formatting). -/
def rhe (q : ℚ) : ℤ :=
  if q - ⌊q⌋ < 1 / 2 then ⌊q⌋
  else if 1 / 2 < q - ⌊q⌋ then ⌊q⌋ + 1
  else if ⌊q⌋ % 2 = 0 then ⌊q⌋ else ⌊q⌋ + 1

/-- Python `f"{x:.df}"` on the exact rational value of the float `x`:
optional sign, integer part, a dot, then exactly `d` fractional digits.
(A negative value that rounds to zero is rendered without the sign,
unlike Python's signed float zero; no theorem below depends on that.) -/
def fmtFixed (d : Nat) (q : ℚ) : List Char :=
  let n := rhe (q * (10 ^ d : ℚ))
  let m := n.natAbs
  let fpStr := natToChars (m % 10 ^ d)
  (if n < 0 then ['-'] else []) ++ natToChars (m / 10 ^ d)
    ++ '.' :: (List.replicate (d - fpStr.length) '0' ++ fpStr)

/-- Python `f"{x:.6f}"`. -/
def fmt6 : ℚ → List Char := fmtFixed 6

/-- Python `f"{x:.2f}"`. -/
def fmt2 : ℚ → List Char := fmtFixed 2

/-- The rendering of a fixed-point number ends in a dot followed by exactly
`d` decimal digits. -/
theorem fmtFixed_shape (d : Nat) (hd : 1 ≤ d) (q : ℚ) :
    ∃ pre post, fmtFixed d q = pre ++ '.' :: post ∧ post.length = d ∧
      ∀ c ∈ post, 48 ≤ c.toNat ∧ c.toNat ≤ 57 := by
  have hpos : 0 < 10 ^ d := Nat.pos_pow_of_pos d (by omega)
  set m := (rhe (q * (10 ^ d : ℚ))).natAbs with hm
  have hmod : m % 10 ^ d < 10 ^ d := Nat.mod_lt _ hpos
  have hlen : (natToChars (m % 10 ^ d)).length ≤ d :=
    natToChars_length_le d _ hmod hd
  refine ⟨(if rhe (q * (10 ^ d : ℚ)) < 0 then ['-'] else []) ++ natToChars (m / 10 ^ d),
    List.replicate (d - (natToChars (m % 10 ^ d)).length) '0' ++ natToChars (m % 10 ^ d),
    ?_, ?_, ?_⟩
  · simp [fmtFixed]
  · simp only [List.length_append, List.length_replicate]
    omega
  · intro c hc
    rcases List.mem_append.mp hc with h2 | h2
    · rw [List.eq_of_mem_replicate h2]
      decide
    · exact mem_natToChars_digit _ c h2

/-- Every character of a fixed-point rendering is a sign, a dot, or a digit. -/
theorem mem_fmtFixed (d : Nat) (q : ℚ) :
    ∀ c ∈ fmtFixed d q, c = '-' ∨ c = '.' ∨ (48 ≤ c.toNat ∧ c.toNat ≤ 57) := by
  intro c hc
  simp only [fmtFixed] at hc
  rcases List.mem_append.mp hc with hc1 | hc2
  · rcases List.mem_append.mp hc1 with hc3 | hc4
    · left
      by_cases hneg : rhe (q * (10 ^ d : ℚ)) < 0
      · simp [hneg] at hc3
        exact hc3
      · simp [hneg] at hc3
    · right; right; exact mem_natToChars_digit _ c hc4
  · rcases List.mem_cons.mp hc2 with hdot | hc5
    · right; left; exact hdot
    · rcases List.mem_append.mp hc5 with hc6 | hc7
      · right; right
        rw [List.eq_of_mem_replicate hc6]
        decide
      · right; right; exact mem_natToChars_digit _ c hc7

/-- Characters outside `{-, .} ∪ digits` never occur in a fixed-point
rendering. -/
theorem not_mem_fmtFixed {c : Char} (h1 : c ≠ '-') (h2 : c ≠ '.')
    (h3 : ¬(48 ≤ c.toNat ∧ c.toNat ≤ 57)) (d : Nat) (q : ℚ) :
    c ∉ fmtFixed d q := by
  intro hc
  rcases mem_fmtFixed d q c hc with h | h | h
  · exact h1 h
  · exact h2 h
  · exact h3 h

/-- A 3-D vector of exact float values. -/
abbrev Vec3 := ℚ × ℚ × ℚ

/-! ### Embedding of `src/ts_viewer.py` -/

namespace TsViewer

/-- One ASE atom: an element symbol and a 3-D position. -/
structure Atom where
  symbol : List Char
  x : ℚ
  y : ℚ
  z : ℚ

/-- One atom line of the XYZ block: `f"{symbol} {x:.6f} {y:.6f} {z:.6f}"`
(src/ts_viewer.py line 49). -/
def atomLine (a : Atom) : List Char :=
  a.symbol ++ ' ' :: fmt6 a.x ++ ' ' :: fmt6 a.y ++ ' ' :: fmt6 a.z

/-- `atoms_to_xyz` (src/ts_viewer.py lines 41-50): the count line, the
comment line, then one line per atom, joined by newlines. -/
def atoms_to_xyz (atoms : List Atom) (comment : List Char) : List Char :=
  joinNl (natToChars atoms.length :: comment :: atoms.map atomLine)

/-- `xyz_to_jsmol_data_script` (src/ts_viewer.py lines 74-78): newlines
become the `|` separator inside an inline `load data` script. -/
def xyz_to_jsmol_data_script (xyz : List Char) : List Char :=
  "data 'model X'|".toList ++ replaceChar '\n' ['|'] xyz ++ "|end 'model X';".toList

/-- One per-atom line of a vibration frame (src/ts_viewer.py line 70):
`f"{coord_line} 0 {dx:.6f} {dy:.6f} {dz:.6f}"`. -/
def vibAtomLine (a : Atom) (disp : Vec3) : List Char :=
  atomLine a ++ ' ' :: '0' :: ' ' :: fmt6 disp.1 ++ ' ' :: fmt6 disp.2.1 ++ ' ' :: fmt6 disp.2.2

/-- The per-atom lines of one vibration frame (src/ts_viewer.py lines
68-70).  The source indexes `mode[j]` for every atom index `j`; the index
is in range whenever the extractor invariant (mode length = atom count)
holds, and an out-of-range index is modelled as a zero displacement. -/
def vibFrameLines (atoms : List Atom) (mode : List Vec3) : List (List Char) :=
  (List.range atoms.length).map fun j =>
    vibAtomLine ((atoms[j]?).getD ⟨[], 0, 0, 0⟩) ((mode[j]?).getD (0, 0, 0))

/-- The `freq = {freq:.2f} cm-1` label line (src/ts_viewer.py line 67). -/
def freqLine (f : ℚ) : List Char := "freq = ".toList ++ fmt2 f ++ " cm-1".toList

/-- `create_jsmol_vibration_script` (src/ts_viewer.py lines 52-72):
`None` when either list is empty, otherwise the frame blocks joined by
newlines with every newline then replaced by `|`. -/
def create_jsmol_vibration_script (atoms : List Atom) (frequencies : List ℚ)
    (normal_modes : List (List Vec3)) : Option (List Char) :=
  if frequencies = [] ∨ normal_modes = [] then none
  else some (replaceChar '\n' ['|'] (joinNl (
    "load data 'model VIBRATIONS'".toList ::
      ((frequencies.zip normal_modes).flatMap (fun fm =>
        natToChars atoms.length :: freqLine fm.1 :: vibFrameLines atoms fm.2)
        ++ ["end 'model VIBRATIONS'".toList]))))

/-- The tail window read by `_tail_contains` (src/ts_viewer.py lines
112-118): the last `min size (n_lines * 200)` bytes of the file. -/
def tailWindow (n_lines : Nat) (content : List Char) : List Char :=
  content.drop (content.length - min content.length (n_lines * 200))

/-- `_tail_contains` (src/ts_viewer.py lines 109-121): the marker test on
the tail window; any I/O failure (`none`) is caught and reported as
`false`. -/
def tail_contains (file : Option (List Char)) (needle : List Char) (n_lines : Nat) : Bool :=
  match file with
  | none => false
  | some content => containsStr (tailWindow n_lines content) needle

/-- The normal-completion marker (src/ts_viewer.py line 129). -/
def normalMarker : List Char := "Normal termination of Gaussian".toList

/-- The error-termination marker (src/ts_viewer.py line 130). -/
def errorMarker : List Char := "Error termination".toList

/-- `gaussian_normally_terminated` (src/ts_viewer.py lines 123-131). -/
def gaussian_normally_terminated (file : Option (List Char)) : Bool :=
  tail_contains file normalMarker 600 && !tail_contains file errorMarker 600

/-- The outcome enumeration of the spec (§3). -/
inductive Outcome
  | VALID_TS
  | MINIMUM
  | HIGHER_ORDER_SADDLE
  | PARSE_ERROR
  | SKIPPED_UNTERMINATED
deriving DecidableEq

/-- The outcome branch of `main` (src/ts_viewer.py lines 290-299), a
function of the imaginary-mode count alone. -/
def classifyOutcome (n_imaginary : Nat) : Outcome :=
  if n_imaginary = 1 then .VALID_TS
  else if n_imaginary = 0 then .MINIMUM
  else .HIGHER_ORDER_SADDLE

/-- `warning_text` of `make_vibration_card` (src/ts_viewer.py lines
139-143). -/
def warning_text (n_imaginary : Nat) : List Char :=
  if n_imaginary = 0 then
    "<div class=\"warning\">⚠ No imaginary frequencies (minimum structure)</div>".toList
  else if 1 < n_imaginary then
    "<div class=\"warning\">⚠ ".toList ++ natToChars n_imaginary
      ++ " imaginary frequencies (higher-order saddle point)</div>".toList
  else []

/-- The attribute escaping of `make_vibration_card` (src/ts_viewer.py
lines 155-156) and of `make_card` (src/structure_viewer.py line 54):
`s.replace('"', '&quot;').replace("'", "\\'")`. -/
def escJs (s : List Char) : List Char :=
  replaceChar '\'' ['\\', '\''] (replaceChar '"' "&quot;".toList s)

/-- `esc_base` of `make_vibration_card` (src/ts_viewer.py lines 146-155):
the escaped base-structure load script placed in the quoted script-host
attribute. -/
def esc_base (title_basename : List Char) (atoms : List Atom) : List Char :=
  escJs (xyz_to_jsmol_data_script (atoms_to_xyz atoms title_basename))

/-- `esc_vibr` of `make_vibration_card` (src/ts_viewer.py lines 150-156). -/
def esc_vibr (atoms : List Atom) (frequencies : List ℚ)
    (modes : List (List Vec3)) : List Char :=
  if 0 < frequencies.length then
    escJs ((create_jsmol_vibration_script atoms frequencies modes).getD [])
  else []

/-- The slice of the cclib parse result consumed by the extractor: the
`atomcoords` frames, the atomic numbers, and the optional
`vibfreqs`/`vibdisps` attributes (absent attribute = `none`). -/
structure CCData where
  atomcoords : List (List Vec3)
  atomnos : List Nat
  vibfreqs : Option (List ℚ)
  vibdisps : Option (List (List Vec3))

/-- An ASE `Atoms(numbers=..., positions=...)` object. -/
structure ASEAtoms where
  numbers : List Nat
  positions : List Vec3
deriving DecidableEq

/-- The mode-selection loop of `parse_gaussian_output` (src/ts_viewer.py
lines 93-99): keep frequency `i` iff it is negative, and pair it with
`vibdisps[i]` when that index exists. -/
def extractImag (vibdisps : List (List Vec3)) : Nat → List ℚ → List ℚ × List (List Vec3)
  | _, [] => ([], [])
  | i, f :: fs =>
    let rest := extractImag vibdisps (i + 1) fs
    if f < 0 then
      (f :: rest.1,
        match vibdisps[i]? with
        | some d => d :: rest.2
        | none => rest.2)
    else rest

/-- `parse_gaussian_output` (src/ts_viewer.py lines 80-107), primary
(cclib) path.  `none` models the branch where `atomcoords` is absent or
empty and the source falls back to the external `ase.io.read` call. -/
def parse_gaussian_output (data : CCData) :
    Option (ASEAtoms × List ℚ × List (List Vec3)) :=
  match data.atomcoords.getLast? with
  | none => none
  | some final_coords =>
    let atoms : ASEAtoms := ⟨data.atomnos, final_coords⟩
    match data.vibfreqs, data.vibdisps with
    | some vf, some vd => some (atoms, extractImag vd 0 vf)
    | _, _ => some (atoms, [], [])

/-- How one log file fares in the `main` loop (src/ts_viewer.py lines
272-302): skipped by the termination gate, failed to parse, or parsed
with `n` imaginary modes. -/
inductive Disposition
  | skip
  | parseFail
  | ok (nImag : Nat)
deriving DecidableEq

/-- Whether a disposition produces a card. -/
def Disposition.isOk : Disposition → Bool
  | .ok _ => true
  | _ => false

/-- The loop state of `main`: the emitted cards (index and outcome, in
emission order) and the `n_skipped` / `n_errors` counters. -/
structure BatchAcc where
  cards : List (Nat × Outcome)
  nSkipped : Nat
  nErrors : Nat
deriving DecidableEq

/-- One iteration of the `main` loop (src/ts_viewer.py lines 272-302): a
skip bumps `n_skipped`, a parse failure bumps `n_errors`, and a produced
card gets index `i - n_skipped` (line 301). -/
def stepLog (i : Nat) (acc : BatchAcc) : Disposition → BatchAcc
  | .skip => ⟨acc.cards, acc.nSkipped + 1, acc.nErrors⟩
  | .parseFail => ⟨acc.cards, acc.nSkipped, acc.nErrors + 1⟩
  | .ok n => ⟨acc.cards ++ [(i - acc.nSkipped, classifyOutcome n)], acc.nSkipped, acc.nErrors⟩

def runBatchAux : Nat → BatchAcc → List Disposition → BatchAcc
  | _, acc, [] => acc
  | i, acc, d :: rest => runBatchAux (i + 1) (stepLog i acc d) rest

/-- The whole `main` loop over the discovered logs in discovery order. -/
def runBatch (logs : List Disposition) : BatchAcc := runBatchAux 0 ⟨[], 0, 0⟩ logs

/-- The result of `main` (src/ts_viewer.py lines 263-311): fatal before
any processing when no logs were discovered, fatal after processing when
no card was produced, otherwise the document holding the cards is
written. -/
inductive MainResult
  | fatalNoInput
  | fatalNoCards (acc : BatchAcc)
  | wrote (doc : List (Nat × Outcome)) (acc : BatchAcc)
deriving DecidableEq

def tsMain (logs : List Disposition) : MainResult :=
  if logs.isEmpty then .fatalNoInput
  else
    let acc := runBatch logs
    if acc.cards.isEmpty then .fatalNoCards acc else .wrote acc.cards acc

end TsViewer

/-! ### Embedding of `src/structure_viewer.py` -/

namespace StructureViewer

/-- `xyz_to_jsmol_data_script` (src/structure_viewer.py lines 43-48);
unlike the ts_viewer variant it appends `show data;`. -/
def xyz_to_jsmol_data_script (xyz : List Char) : List Char :=
  "data 'model X'|".toList ++ replaceChar '\n' ['|'] xyz
    ++ "|end 'model X';show data;".toList

/-- `escaped_jscript` of `make_card` (src/structure_viewer.py line 54):
the same quote-and-apostrophe escaping as ts_viewer's cards. -/
def escaped_jscript (jsmol_script : List Char) : List Char :=
  TsViewer.escJs jsmol_script

end StructureViewer

/-- Python `html.escape` with its default `quote=True` (used at
src/xyz_viewer.py lines 98-99): sequential replacement of the five
special characters. -/
def htmlEscape (s : List Char) : List Char :=
  replaceChar '\'' "&#x27;".toList (replaceChar '"' "&quot;".toList
    (replaceChar '>' "&gt;".toList (replaceChar '<' "&lt;".toList
      (replaceChar '&' "&amp;".toList s))))

/-- A lowercase hexadecimal digit character for `n % 16`. -/
def hexDigit (n : Nat) : Char :=
  if n % 16 < 10 then digitChar (n % 16) else Char.ofNat (87 + n % 16)

/-- The escaping Python `json.dumps` (defaults, `ensure_ascii=True`)
applies to one character of a string: quote, backslash, control and
non-ASCII characters are escaped; every other character — in particular
the apostrophe — passes through unchanged.  (Characters outside the
basic multilingual plane are not modelled; none occurs here.) -/
def jsonEscapeChar (c : Char) : List Char :=
  if c = '"' then ['\\', '"']
  else if c = '\\' then ['\\', '\\']
  else if c = '\n' then ['\\', 'n']
  else if c = '\t' then ['\\', 't']
  else if c = '\r' then ['\\', 'r']
  else if c.toNat = 8 then ['\\', 'b']
  else if c.toNat = 12 then ['\\', 'f']
  else if c.toNat < 32 ∨ 126 < c.toNat then
    '\\' :: 'u' :: hexDigit (c.toNat / 4096) :: hexDigit (c.toNat / 256)
      :: hexDigit (c.toNat / 16) :: [hexDigit c.toNat]
  else [c]

/-- The body of Python `json.dumps` on a string. -/
def jsonEscape (s : List Char) : List Char := s.flatMap jsonEscapeChar

/-- Python `json.dumps` on a string: the escaped body wrapped in
double quotes. -/
def jsonDumps (s : List Char) : List Char := '"' :: jsonEscape s ++ ['"']

/-- Scan for an apostrophe that is not immediately preceded by a
backslash (a backslash escapes the character right after it). -/
def noRawApos : List Char → Bool
  | [] => true
  | c :: rest =>
    if c = '\\' then
      match rest with
      | [] => true
      | _ :: r2 => noRawApos r2
    else if c = '\'' then false
    else noRawApos rest

/-- Scan for a double quote that is not immediately preceded by a
backslash. -/
def noRawQuote : List Char → Bool
  | [] => true
  | c :: rest =>
    if c = '\\' then
      match rest with
      | [] => true
      | _ :: r2 => noRawQuote r2
    else if c = '"' then false
    else noRawQuote rest

/-! ### Embedding of `src/xyz_viewer.py` -/

namespace XyzViewer

/-- `_fallback_atoms_to_xyz` (src/xyz_viewer.py lines 27-32), which is
what `atoms_to_xyz` binds to at line 40: the optional
`amk_result_viewer` module is not part of this repository, so the
`import` at lines 15-20 fails and the fallback is used. -/
def atoms_to_xyz (atoms : List TsViewer.Atom) (comment : List Char) : List Char :=
  joinNl (natToChars atoms.length :: comment :: atoms.map TsViewer.atomLine)

/-- `_fallback_xyz_to_jsmol_data_script` (src/xyz_viewer.py lines 35-37),
bound to `xyz_to_jsmol_data_script` at line 41. -/
def xyz_to_jsmol_data_script (xyz : List Char) : List Char :=
  "data 'model X'|".toList ++ replaceChar '\n' ['|'] xyz ++ "|end 'model X';".toList

/-- The script string embedded at src/xyz_viewer.py line 116:
`json.dumps(base_script)` where `base_script` is built from the XYZ
block of the atoms with the HTML-escaped relative path as comment
(lines 98-103). -/
def embeddedScript (rel_path : List Char) (atoms : List TsViewer.Atom) : List Char :=
  jsonDumps (xyz_to_jsmol_data_script (atoms_to_xyz atoms (htmlEscape rel_path)))

/-- One chunk of `_natural_key` (src/xyz_viewer.py lines 178-184): a
digit run becomes its integer value, any other run is lowercased text. -/
inductive NKey
  | str (s : List Char)
  | num (n : Nat)
deriving DecidableEq

/-- `os.path.basename` for a POSIX path: the part after the last slash. -/
def basenameOf (p : List Char) : List Char :=
  (p.reverse.takeWhile (fun c => c ≠ '/')).reverse

/-- The maximal non-digit run at the head, and the remainder. -/
def textSpan : List Char → List Char × List Char
  | [] => ([], [])
  | c :: t =>
    if c.isDigit then ([], c :: t)
    else
      let r := textSpan t
      (c :: r.1, r.2)

/-- The maximal digit run at the head, and the remainder. -/
def digitSpan : List Char → List Char × List Char
  | [] => ([], [])
  | c :: t =>
    if c.isDigit then
      let r := digitSpan t
      (c :: r.1, r.2)
    else ([], c :: t)

/-- The chunking of `re.split` on digit runs composed with the per-chunk
mapping of `_natural_key`: alternating text (lowercased) and digit-run
(integer value) chunks, text chunks possibly empty at either end; fuel
`length + 1` always suffices. -/
def chunksAux : Nat → List Char → List NKey
  | 0, _ => []
  | fuel + 1, cs =>
    let t := textSpan cs
    match t.2 with
    | [] => [NKey.str (t.1.map Char.toLower)]
    | c :: r =>
      let d := digitSpan (c :: r)
      NKey.str (t.1.map Char.toLower) :: NKey.num (decimalValue d.1) :: chunksAux fuel d.2

/-- `_natural_key` (src/xyz_viewer.py lines 178-184). -/
def natural_key (path : List Char) : List NKey :=
  chunksAux ((basenameOf path).length + 1) (basenameOf path)

/-- Python `str` lexicographic `<` by code point. -/
def strLt : List Char → List Char → Bool
  | [], [] => false
  | [], _ :: _ => true
  | _ :: _, [] => false
  | a :: x, b :: y =>
    if a.toNat < b.toNat then true
    else if b.toNat < a.toNat then false
    else strLt x y

/-- Python `<` on two chunk values.  Comparing an `int` chunk with a
`str` chunk raises `TypeError` in Python; between two `_natural_key`
results, chunks at equal positions always have the same kind (text at
even, digits at odd positions), so the mixed cases below are never
exercised and carry arbitrary values. -/
def nkeyLt : NKey → NKey → Bool
  | .num a, .num b => a < b
  | .str a, .str b => strLt a b
  | .num _, .str _ => true
  | .str _, .num _ => false

/-- Python list `<` (lexicographic over the chunk order). -/
def keyLt : List NKey → List NKey → Bool
  | [], [] => false
  | [], _ :: _ => true
  | _ :: _, [] => false
  | a :: x, b :: y =>
    if nkeyLt a b then true
    else if nkeyLt b a then false
    else keyLt x y

/-- Stable insertion of `x` into a run already sorted by the key:
`x` goes before the first element whose key is not smaller. -/
def insertByKey (x : List Char) : List (List Char) → List (List Char)
  | [] => [x]
  | y :: t =>
    if keyLt (natural_key y) (natural_key x) then y :: insertByKey x t
    else x :: y :: t

/-- Python `sorted(files, key=_natural_key)` (src/xyz_viewer.py line
189): a stable sort by the natural key. -/
def sortedByNaturalKey (files : List (List Char)) : List (List Char) :=
  files.foldr insertByKey []

end XyzViewer

/-! ### Supporting lemmas about the Result Extractor -/

/-- The kept frequencies are exactly the negative entries of `vibfreqs`,
in their original order, whatever `vibdisps` holds. -/
theorem extractImag_fst (vd : List (List Vec3)) (vf : List ℚ) : ∀ i,
    (TsViewer.extractImag vd i vf).1 = vf.filter (fun f => decide (f < 0)) := by
  induction vf with
  | nil => intro i; rfl
  | cons f fs ih =>
    intro i
    by_cases hf : f < 0
    · simp only [TsViewer.extractImag, if_pos hf, List.filter_cons, decide_eq_true hf]
      simp [ih (i + 1)]
    · simp only [TsViewer.extractImag, if_neg hf, List.filter_cons]
      have : decide (f < 0) = false := decide_eq_false hf
      simp [this, ih (i + 1)]

/-- When `vibdisps` covers all remaining indices, each kept frequency is
paired with a displacement from `vibdisps`, and the two outputs have equal
length. -/
theorem extractImag_snd (vd : List (List Vec3)) (vf : List ℚ) : ∀ i,
    i + vf.length ≤ vd.length →
    (TsViewer.extractImag vd i vf).2.length = (TsViewer.extractImag vd i vf).1.length ∧
    ∀ m ∈ (TsViewer.extractImag vd i vf).2, m ∈ vd := by
  induction vf with
  | nil => intro i _; exact ⟨rfl, by intro m hm; simp [TsViewer.extractImag] at hm⟩
  | cons f fs ih =>
    intro i hle
    simp only [List.length_cons] at hle
    have hlt : i < vd.length := by omega
    have hrest := ih (i + 1) (by omega)
    by_cases hf : f < 0
    · simp only [TsViewer.extractImag, if_pos hf,
        List.getElem?_eq_getElem hlt]
      refine ⟨by simp [hrest.1], ?_⟩
      intro m hm
      simp only [List.mem_cons] at hm
      rcases hm with hm | hm
      · subst hm
        exact List.getElem_mem hlt
      · exact hrest.2 m hm
    · simp only [TsViewer.extractImag, if_neg hf]
      exact hrest

/-! ### Claims -/

/-- C1: for every log file content, `gaussian_normally_terminated`
reports the log usable iff the normal-completion marker occurs in the
600-line tail window and the error-termination marker does not; in
particular a tail containing both markers is classified unusable. -/
theorem claim_C1_usable_iff_markers (content : List Char) :
    (TsViewer.gaussian_normally_terminated (some content) = true ↔
      (containsStr (TsViewer.tailWindow 600 content) TsViewer.normalMarker = true ∧
       containsStr (TsViewer.tailWindow 600 content) TsViewer.errorMarker = false)) ∧
    (containsStr (TsViewer.tailWindow 600 content) TsViewer.normalMarker = true →
     containsStr (TsViewer.tailWindow 600 content) TsViewer.errorMarker = true →
     TsViewer.gaussian_normally_terminated (some content) = false) := by
  constructor
  · simp [TsViewer.gaussian_normally_terminated, TsViewer.tail_contains]
  · intro h1 h2
    simp [TsViewer.gaussian_normally_terminated, TsViewer.tail_contains, h1, h2]

/-- Witness for C1: a concrete tail holding both markers is unusable. -/
theorem claim_C1_usable_iff_markers_witness :
    TsViewer.gaussian_normally_terminated
      (some " Normal termination of Gaussian\n Error termination of request\n".toList)
      = false :=
  (claim_C1_usable_iff_markers _).2 (by decide) (by decide)

/-- C2: the outcome branch of `main` is a total function of the
imaginary-mode count alone: 0 gives MINIMUM together with a warning,
1 gives VALID_TS, every count above 1 gives HIGHER_ORDER_SADDLE together
with a warning, and no produced card can carry any other outcome. -/
theorem claim_C2_outcome_classifier (n : Nat) :
    (TsViewer.classifyOutcome 0 = TsViewer.Outcome.MINIMUM ∧
      TsViewer.warning_text 0 ≠ []) ∧
    (TsViewer.classifyOutcome 1 = TsViewer.Outcome.VALID_TS ∧
      TsViewer.warning_text 1 = []) ∧
    (1 < n → TsViewer.classifyOutcome n = TsViewer.Outcome.HIGHER_ORDER_SADDLE ∧
      TsViewer.warning_text n ≠ []) ∧
    (TsViewer.classifyOutcome n = TsViewer.Outcome.MINIMUM ∨
     TsViewer.classifyOutcome n = TsViewer.Outcome.VALID_TS ∨
     TsViewer.classifyOutcome n = TsViewer.Outcome.HIGHER_ORDER_SADDLE) := by
  refine ⟨⟨by decide, by decide⟩, ⟨by decide, by decide⟩, ?_, ?_⟩
  · intro h
    constructor
    · unfold TsViewer.classifyOutcome
      rw [if_neg (by omega), if_neg (by omega)]
    · unfold TsViewer.warning_text
      rw [if_neg (by omega), if_pos h]
      apply List.append_ne_nil_of_left_ne_nil
      apply List.append_ne_nil_of_left_ne_nil
      decide
  · unfold TsViewer.classifyOutcome
    by_cases h1 : n = 1
    · simp [h1]
    · by_cases h0 : n = 0
      · simp [h0]
      · rw [if_neg h1, if_neg h0]
        simp

/-- Witness for C2 at count 3. -/
theorem claim_C2_outcome_classifier_witness :
    TsViewer.classifyOutcome 3 = TsViewer.Outcome.HIGHER_ORDER_SADDLE ∧
      TsViewer.warning_text 3 ≠ [] :=
  (claim_C2_outcome_classifier 3).2.2.1 (by omega)

/-- C3: whenever the library data is well formed (as the spec assumes of
the external parser: one displacement table per frequency, one
displacement row per atom), the extractor returns a frequency list and a
displacement list of equal length, every displacement having exactly one
entry per atom of the returned Structure. -/
theorem claim_C3_mode_invariants (data : TsViewer.CCData) (vf : List ℚ)
    (vd : List (List Vec3)) (coords : List Vec3)
    (hlast : data.atomcoords.getLast? = some coords)
    (hvf : data.vibfreqs = some vf) (hvd : data.vibdisps = some vd)
    (hlen : vd.length = vf.length)
    (hdisp : ∀ m ∈ vd, m.length = data.atomnos.length) :
    ∃ atoms fs ms,
      TsViewer.parse_gaussian_output data = some (atoms, fs, ms) ∧
      fs.length = ms.length ∧
      ∀ m ∈ ms, m.length = atoms.numbers.length := by
  refine ⟨⟨data.atomnos, coords⟩, (TsViewer.extractImag vd 0 vf).1,
    (TsViewer.extractImag vd 0 vf).2, ?_, ?_, ?_⟩
  · simp [TsViewer.parse_gaussian_output, hlast, hvf, hvd]
  · exact ((extractImag_snd vd vf 0 (by omega)).1).symm
  · intro m hm
    exact hdisp m ((extractImag_snd vd vf 0 (by omega)).2 m hm)

/-- Witness for C3 on a two-mode, one-atom data set. -/
theorem claim_C3_mode_invariants_witness :
    ∃ atoms fs ms,
      TsViewer.parse_gaussian_output
          ⟨[[(0, 0, 0)]], [1], some [-1, 2], some [[(1, 0, 0)], [(0, 1, 0)]]⟩
        = some (atoms, fs, ms) ∧
      fs.length = ms.length ∧
      ∀ m ∈ ms, m.length = atoms.numbers.length :=
  claim_C3_mode_invariants _ [-1, 2] [[(1, 0, 0)], [(0, 1, 0)]] [(0, 0, 0)]
    rfl rfl rfl (by decide) (by decide)

/-- C4: on the primary parse path the extractor returns the atoms built
from the **last** `atomcoords` frame, and its returned frequency list is
exactly the negative-frequency entries of `vibfreqs` in their original
order — every non-negative frequency is discarded. -/
theorem claim_C4_last_frame_and_filter (data : TsViewer.CCData)
    (coords : List Vec3) (vf : List ℚ) (vd : List (List Vec3))
    (hlast : data.atomcoords.getLast? = some coords)
    (hvf : data.vibfreqs = some vf) (hvd : data.vibdisps = some vd) :
    ∃ ms, TsViewer.parse_gaussian_output data
      = some (⟨data.atomnos, coords⟩, vf.filter (fun f => decide (f < 0)), ms) := by
  refine ⟨(TsViewer.extractImag vd 0 vf).2, ?_⟩
  have hfst := extractImag_fst vd vf 0
  simp [TsViewer.parse_gaussian_output, hlast, hvf, hvd, ← hfst]

/-- Witness for C4: two geometry frames, the second is returned; the
positive frequency 100 is dropped and the negative ones kept in order. -/
theorem claim_C4_last_frame_and_filter_witness :
    ∃ ms, TsViewer.parse_gaussian_output
        ⟨[[(1, 1, 1)], [(2, 2, 2)]], [6], some [-3, 100, -7], some [[(1, 0, 0)], [(0, 1, 0)], [(0, 0, 1)]]⟩
      = some (⟨[6], [(2, 2, 2)]⟩, [-3, -7], ms) := by
  have h := claim_C4_last_frame_and_filter
    ⟨[[(1, 1, 1)], [(2, 2, 2)]], [6], some [-3, 100, -7], some [[(1, 0, 0)], [(0, 1, 0)], [(0, 0, 1)]]⟩
    [(2, 2, 2)] [-3, 100, -7] [[(1, 0, 0)], [(0, 1, 0)], [(0, 0, 1)]] rfl rfl rfl
  have hfil : ([-3, 100, -7] : List ℚ).filter (fun f => decide (f < 0)) = [-3, -7] := by decide
  rw [hfil] at h
  exact h

/-- C10: a file whose read raises (nonexistent or unreadable) makes every
tail marker test return `false`, so the Termination Classifier returns
unusable — the log is skipped — instead of propagating the failure. -/
theorem claim_C10_unreadable_file_unusable :
    (∀ needle n_lines, TsViewer.tail_contains none needle n_lines = false) ∧
    TsViewer.gaussian_normally_terminated none = false :=
  ⟨fun _ _ => rfl, rfl⟩

/-! ### Supporting lemmas about the batch loop of `main` -/

/-- Counters of the loop: cards produced, skips and parse errors each
count their own dispositions. -/
theorem runBatchAux_counts (logs : List TsViewer.Disposition) : ∀ (i : Nat) (acc : TsViewer.BatchAcc),
    ((TsViewer.runBatchAux i acc logs).cards.length
        = acc.cards.length + logs.countP (fun d => d.isOk)) ∧
    ((TsViewer.runBatchAux i acc logs).nSkipped
        = acc.nSkipped + logs.count TsViewer.Disposition.skip) ∧
    ((TsViewer.runBatchAux i acc logs).nErrors
        = acc.nErrors + logs.count TsViewer.Disposition.parseFail) := by
  induction logs with
  | nil => intro i acc; simp [TsViewer.runBatchAux]
  | cons d rest ih =>
    intro i acc
    obtain ⟨h1, h2, h3⟩ := ih (i + 1) (TsViewer.stepLog i acc d)
    refine ⟨?_, ?_, ?_⟩ <;>
      cases d <;>
        simp_all [TsViewer.runBatchAux, TsViewer.stepLog, List.countP_cons,
          List.count_cons, TsViewer.Disposition.isOk] <;> omega

/-- The card indices `i - n_skipped` grow strictly along the loop. -/
theorem runBatchAux_pairwise (logs : List TsViewer.Disposition) : ∀ (i : Nat) (acc : TsViewer.BatchAcc),
    acc.nSkipped ≤ i →
    (∀ x ∈ acc.cards.map Prod.fst, x + acc.nSkipped < i) →
    List.Pairwise (· < ·) (acc.cards.map Prod.fst) →
    List.Pairwise (· < ·) ((TsViewer.runBatchAux i acc logs).cards.map Prod.fst) := by
  induction logs with
  | nil => intro i acc _ _ hp; exact hp
  | cons d rest ih =>
    intro i acc hs hb hp
    cases d with
    | skip =>
      show List.Pairwise (· < ·)
        ((TsViewer.runBatchAux (i + 1) ⟨acc.cards, acc.nSkipped + 1, acc.nErrors⟩ rest).cards.map Prod.fst)
      apply ih (i + 1) ⟨acc.cards, acc.nSkipped + 1, acc.nErrors⟩
      · show acc.nSkipped + 1 ≤ i + 1
        omega
      · intro x hx
        have := hb x hx
        show x + (acc.nSkipped + 1) < i + 1
        omega
      · exact hp
    | parseFail =>
      show List.Pairwise (· < ·)
        ((TsViewer.runBatchAux (i + 1) ⟨acc.cards, acc.nSkipped, acc.nErrors + 1⟩ rest).cards.map Prod.fst)
      apply ih (i + 1) ⟨acc.cards, acc.nSkipped, acc.nErrors + 1⟩
      · show acc.nSkipped ≤ i + 1
        omega
      · intro x hx
        have := hb x hx
        show x + acc.nSkipped < i + 1
        omega
      · exact hp
    | ok n =>
      show List.Pairwise (· < ·)
        ((TsViewer.runBatchAux (i + 1)
          ⟨acc.cards ++ [(i - acc.nSkipped, TsViewer.classifyOutcome n)],
            acc.nSkipped, acc.nErrors⟩ rest).cards.map Prod.fst)
      apply ih (i + 1)
        ⟨acc.cards ++ [(i - acc.nSkipped, TsViewer.classifyOutcome n)], acc.nSkipped, acc.nErrors⟩
      · show acc.nSkipped ≤ i + 1
        omega
      · intro x hx
        show x + acc.nSkipped < i + 1
        simp only [List.map_append, List.mem_append, List.map_cons, List.map_nil,
          List.mem_singleton] at hx
        rcases hx with hx | hx
        · have := hb x hx
          omega
        · subst hx
          omega
      · show List.Pairwise (· < ·)
          ((acc.cards ++ [(i - acc.nSkipped, TsViewer.classifyOutcome n)]).map Prod.fst)
        rw [List.map_append]
        rw [List.pairwise_append]
        refine ⟨hp, by simp, ?_⟩
        intro a ha b hbm
        simp only [List.map_cons, List.map_nil, List.mem_singleton] at hbm
        subst hbm
        have := hb a ha
        omega

/-- In a parse-error-free run the card indices are `0, 1, 2, …` exactly. -/
theorem runBatchAux_range (logs : List TsViewer.Disposition) : ∀ (i : Nat) (acc : TsViewer.BatchAcc),
    TsViewer.Disposition.parseFail ∉ logs →
    i = acc.nSkipped + acc.cards.length →
    acc.cards.map Prod.fst = List.range acc.cards.length →
    (TsViewer.runBatchAux i acc logs).cards.map Prod.fst
      = List.range (TsViewer.runBatchAux i acc logs).cards.length := by
  induction logs with
  | nil => intro i acc _ _ hr; exact hr
  | cons d rest ih =>
    intro i acc hnf hi hr
    have hnf2 : TsViewer.Disposition.parseFail ∉ rest := fun h => hnf (by simp [h])
    cases d with
    | parseFail => exact absurd (by simp) hnf
    | skip =>
      show (TsViewer.runBatchAux (i + 1)
          ⟨acc.cards, acc.nSkipped + 1, acc.nErrors⟩ rest).cards.map Prod.fst = _
      exact ih (i + 1) ⟨acc.cards, acc.nSkipped + 1, acc.nErrors⟩ hnf2
        (by show i + 1 = acc.nSkipped + 1 + acc.cards.length; omega) hr
    | ok n =>
      show (TsViewer.runBatchAux (i + 1)
          ⟨acc.cards ++ [(i - acc.nSkipped, TsViewer.classifyOutcome n)],
            acc.nSkipped, acc.nErrors⟩ rest).cards.map Prod.fst = _
      apply ih (i + 1)
        ⟨acc.cards ++ [(i - acc.nSkipped, TsViewer.classifyOutcome n)], acc.nSkipped, acc.nErrors⟩
        hnf2
      · show i + 1 = acc.nSkipped + (acc.cards ++ [(i - acc.nSkipped, TsViewer.classifyOutcome n)]).length
        simp only [List.length_append, List.length_cons, List.length_nil]
        omega
      · show (acc.cards ++ [(i - acc.nSkipped, TsViewer.classifyOutcome n)]).map Prod.fst
          = List.range (acc.cards ++ [(i - acc.nSkipped, TsViewer.classifyOutcome n)]).length
        have hidx : i - acc.nSkipped = acc.cards.length := by omega
        simp only [List.map_append, List.map_cons, List.map_nil, List.length_append,
          List.length_cons, List.length_nil, hr, hidx]
        rw [show acc.cards.length + 1 = Nat.succ acc.cards.length from rfl, List.range_succ]

/-- C5 fails on the code: with the discovered logs disposing as
(parsed, parse-error, parsed) the two produced cards receive indices 0
and 2 — the parse error leaves a gap, the indices of successive cards
are not consecutive. -/
theorem claim_C5_counterexample :
    ((TsViewer.runBatch [TsViewer.Disposition.ok 1, TsViewer.Disposition.parseFail,
        TsViewer.Disposition.ok 1]).cards.map Prod.fst = [0, 2]) ∧ 0 + 1 ≠ 2 := by
  decide

/-- C5 (amended): cards appear in discovery order with skipped and
failed entries absent from the card list; the indices of successive
cards are strictly increasing — hence pairwise distinct, so the
index-namespaced control names never collide — and they are consecutive
from 0 whenever no parse error occurred, while a parse error leaves a
gap in the numbering. -/
theorem claim_C5_amended (logs : List TsViewer.Disposition) :
    List.Pairwise (· < ·) ((TsViewer.runBatch logs).cards.map Prod.fst) ∧
    ((TsViewer.runBatch logs).cards.map Prod.fst).Nodup ∧
    (TsViewer.Disposition.parseFail ∉ logs →
      (TsViewer.runBatch logs).cards.map Prod.fst
        = List.range (TsViewer.runBatch logs).cards.length) := by
  have hpw := runBatchAux_pairwise logs 0 ⟨[], 0, 0⟩ (le_refl 0) (by simp) (by simp)
  refine ⟨hpw, hpw.imp (fun h => Nat.ne_of_lt h), ?_⟩
  intro hnf
  exact runBatchAux_range logs 0 ⟨[], 0, 0⟩ hnf rfl (by simp)

/-- Witness for C5 (amended): an error-free run with one skip yields
consecutive indices from 0. -/
theorem claim_C5_amended_witness :
    (TsViewer.runBatch [TsViewer.Disposition.skip, TsViewer.Disposition.ok 1,
        TsViewer.Disposition.ok 0]).cards.map Prod.fst
      = List.range (TsViewer.runBatch [TsViewer.Disposition.skip,
          TsViewer.Disposition.ok 1, TsViewer.Disposition.ok 0]).cards.length :=
  (claim_C5_amended _).2.2 (by decide)

/-- C9: per-file failures (termination skip or parse error) never abort
the batch — each is counted and the loop continues, so the number of
cards equals the number of successfully parsed logs regardless of where
failures sit; the run is fatal exactly when no log was discovered
(`fatalNoInput`, before processing) or a non-empty input produced zero
cards (`fatalNoCards`); only `wrote` carries an output document, so in
both fatal cases no document is written. -/
theorem claim_C9_error_policy (logs : List TsViewer.Disposition) :
    (TsViewer.tsMain logs = TsViewer.MainResult.fatalNoInput ↔ logs = []) ∧
    (∀ acc, TsViewer.tsMain logs = TsViewer.MainResult.fatalNoCards acc →
      logs ≠ [] ∧ ∀ d ∈ logs, d.isOk = false) ∧
    ((∃ doc acc, TsViewer.tsMain logs = TsViewer.MainResult.wrote doc acc) ↔
      ∃ d ∈ logs, d.isOk = true) ∧
    ((TsViewer.runBatch logs).cards.length = logs.countP (fun d => d.isOk)) ∧
    ((TsViewer.runBatch logs).nSkipped = logs.count TsViewer.Disposition.skip) ∧
    ((TsViewer.runBatch logs).nErrors = logs.count TsViewer.Disposition.parseFail) := by
  obtain ⟨hc1, hc2, hc3⟩ := runBatchAux_counts logs 0 ⟨[], 0, 0⟩
  have hcards : (TsViewer.runBatch logs).cards.length = logs.countP (fun d => d.isOk) := by
    simpa [TsViewer.runBatch] using hc1
  have hskip : (TsViewer.runBatch logs).nSkipped = logs.count TsViewer.Disposition.skip := by
    simpa [TsViewer.runBatch] using hc2
  have herr : (TsViewer.runBatch logs).nErrors = logs.count TsViewer.Disposition.parseFail := by
    simpa [TsViewer.runBatch] using hc3
  by_cases hlogs : logs = []
  · subst hlogs
    refine ⟨by simp [TsViewer.tsMain], ?_, ?_, hcards, hskip, herr⟩
    · intro acc h
      simp [TsViewer.tsMain] at h
    · constructor
      · rintro ⟨doc, acc, h⟩
        simp [TsViewer.tsMain] at h
      · rintro ⟨d, hd, _⟩
        simp at hd
  · have hne : logs.isEmpty = false := by
      cases logs with
      | nil => exact absurd rfl hlogs
      | cons a l => rfl
    refine ⟨?_, ?_, ?_, hcards, hskip, herr⟩
    · simp only [TsViewer.tsMain, hne, Bool.false_eq_true, if_false]
      constructor
      · intro h
        by_cases hc0 : (TsViewer.runBatch logs).cards.isEmpty
        · rw [if_pos hc0] at h
          exact absurd h (by simp)
        · rw [if_neg hc0] at h
          exact absurd h (by simp)
      · intro h
        exact absurd h hlogs
    · intro acc h
      simp only [TsViewer.tsMain, hne, Bool.false_eq_true, if_false] at h
      by_cases hc0 : (TsViewer.runBatch logs).cards.isEmpty
      · refine ⟨hlogs, ?_⟩
        have h0 : (TsViewer.runBatch logs).cards.length = 0 := by
          rw [List.isEmpty_iff] at hc0
          simp [hc0]
        rw [hcards] at h0
        intro d hd
        have := List.countP_eq_zero.mp h0 d hd
        simpa using this
      · rw [if_neg hc0] at h
        exact absurd h (by simp)
    · simp only [TsViewer.tsMain, hne, Bool.false_eq_true, if_false]
      by_cases hc0 : (TsViewer.runBatch logs).cards.isEmpty
      · rw [if_pos hc0]
        constructor
        · rintro ⟨doc, acc, h⟩
          exact absurd h (by simp)
        · rintro ⟨d, hd, hok⟩
          have h0 : (TsViewer.runBatch logs).cards.length = 0 := by
            rw [List.isEmpty_iff] at hc0
            simp [hc0]
          rw [hcards] at h0
          have := List.countP_eq_zero.mp h0 d hd
          simp [hok] at this
      · rw [if_neg hc0]
        constructor
        · intro _
          have h0 : (TsViewer.runBatch logs).cards.length ≠ 0 := by
            intro hz
            apply hc0
            rw [List.isEmpty_iff]
            exact List.length_eq_zero.mp hz
          rw [hcards] at h0
          have hpos : 0 < logs.countP (fun d => d.isOk) := Nat.pos_of_ne_zero h0
          simpa using List.countP_pos_iff.mp hpos
        · intro _
          exact ⟨_, _, rfl⟩

/-- Witness for C9: a skip and a parse error around one good log still
produce exactly one card. -/
theorem claim_C9_error_policy_witness :
    (TsViewer.runBatch [TsViewer.Disposition.skip, TsViewer.Disposition.parseFail,
        TsViewer.Disposition.ok 1]).cards.length
      = [TsViewer.Disposition.skip, TsViewer.Disposition.parseFail,
          TsViewer.Disposition.ok 1].countP (fun d => d.isOk) :=
  (claim_C9_error_policy _).2.2.2.1

/-! ### Supporting lemmas about the Geometry Encoder -/

/-- A character whose code is outside the ASCII digit range never occurs
in a decimal rendering. -/
theorem not_mem_natToChars {c : Char} (h : ¬(48 ≤ c.toNat ∧ c.toNat ≤ 57)) (n : Nat) :
    c ∉ natToChars n := fun hc => h (mem_natToChars_digit n c hc)

/-- A character that is no sign, dot, digit or space, and not in the
symbol, never occurs in an atom line. -/
theorem not_mem_atomLine {c : Char} (a : TsViewer.Atom) (hsym : c ∉ a.symbol)
    (hsp : c ≠ ' ') (h1 : c ≠ '-') (h2 : c ≠ '.')
    (h3 : ¬(48 ≤ c.toNat ∧ c.toNat ≤ 57)) : c ∉ TsViewer.atomLine a := by
  unfold TsViewer.atomLine
  intro hcm
  rcases List.mem_append.mp hcm with hcm | hcm
  · rcases List.mem_append.mp hcm with hcm | hcm
    · rcases List.mem_append.mp hcm with hcm | hcm
      · exact hsym hcm
      · rcases List.mem_cons.mp hcm with hcm | hcm
        · exact hsp hcm
        · exact not_mem_fmtFixed h1 h2 h3 6 a.x hcm
    · rcases List.mem_cons.mp hcm with hcm | hcm
      · exact hsp hcm
      · exact not_mem_fmtFixed h1 h2 h3 6 a.y hcm
  · rcases List.mem_cons.mp hcm with hcm | hcm
    · exact hsp hcm
    · exact not_mem_fmtFixed h1 h2 h3 6 a.z hcm

/-- C6: for a newline-free comment (and the newline-free element symbols
of a Structure) the XYZ block splits into exactly `N + 2` lines — line 1
the decimal atom count (which parses back to `N`), line 2 the comment
verbatim, then one `<symbol> <x> <y> <z>` line per atom whose coordinates
each end in a dot followed by exactly six decimal digits. -/
theorem claim_C6_geometry_encoder (atoms : List TsViewer.Atom) (comment : List Char)
    (hc : '\n' ∉ comment) (hs : ∀ a ∈ atoms, '\n' ∉ a.symbol) :
    splitNl (TsViewer.atoms_to_xyz atoms comment)
      = natToChars atoms.length :: comment :: atoms.map TsViewer.atomLine ∧
    (splitNl (TsViewer.atoms_to_xyz atoms comment)).length = atoms.length + 2 ∧
    decimalValue (natToChars atoms.length) = atoms.length ∧
    ∀ a ∈ atoms,
      TsViewer.atomLine a
          = a.symbol ++ ' ' :: fmt6 a.x ++ ' ' :: fmt6 a.y ++ ' ' :: fmt6 a.z ∧
      ∀ q ∈ [a.x, a.y, a.z], ∃ pre post, fmt6 q = pre ++ '.' :: post ∧
        post.length = 6 ∧ ∀ ch ∈ post, 48 ≤ ch.toNat ∧ ch.toNat ≤ 57 := by
  have hsplit : splitNl (TsViewer.atoms_to_xyz atoms comment)
      = natToChars atoms.length :: comment :: atoms.map TsViewer.atomLine := by
    apply splitNl_joinNl
    · simp
    · intro s hsmem
      rcases List.mem_cons.mp hsmem with hc1 | hc1
      · subst hc1
        exact not_mem_natToChars (by decide) _
      · rcases List.mem_cons.mp hc1 with hc2 | hc2
        · subst hc2
          exact hc
        · obtain ⟨a, ha, rfl⟩ := List.mem_map.mp hc2
          exact not_mem_atomLine a (hs a ha) (by decide) (by decide) (by decide) (by decide)
  refine ⟨hsplit, ?_, decimalValue_natToChars _, ?_⟩
  · rw [hsplit]
    simp
  · intro a _
    refine ⟨rfl, ?_⟩
    intro q _
    exact fmtFixed_shape 6 (by omega) q

/-- Witness for C6 on a two-atom structure. -/
theorem claim_C6_geometry_encoder_witness :
    (splitNl (TsViewer.atoms_to_xyz
        [⟨"H".toList, 0, 0, 0⟩, ⟨"O".toList, 1, 2, 3⟩] "water".toList)).length = 4 :=
  (claim_C6_geometry_encoder _ _ (by decide) (by decide)).2.1

/-! ### Supporting lemmas about script escaping -/

theorem not_mem_joinNl {c : Char} (hne : c ≠ '\n') :
    ∀ l : List (List Char), (∀ s ∈ l, c ∉ s) → c ∉ joinNl l := by
  intro l
  induction l with
  | nil => intro _; simp [joinNl]
  | cons s rest ih =>
    intro h
    cases rest with
    | nil => simpa [joinNl] using h s (by simp)
    | cons t r2 =>
      simp only [joinNl]
      intro hmem
      rcases List.mem_append.mp hmem with hm | hm
      · exact h s (by simp) hm
      · rcases List.mem_cons.mp hm with hm | hm
        · exact hne hm
        · exact ih (fun x hx => h x (by simp [hx])) hm

/-- The `.replace("\n", "|")` pass leaves no newline behind. -/
theorem newline_not_mem_stripNl (s : List Char) : '\n' ∉ replaceChar '\n' ['|'] s :=
  target_not_mem_replaceChar (by decide)

theorem backslash_not_mem_freqLine (f : ℚ) : '\\' ∉ TsViewer.freqLine f := by
  unfold TsViewer.freqLine
  intro hm
  rcases List.mem_append.mp hm with hm | hm
  · rcases List.mem_append.mp hm with hm | hm
    · revert hm; decide
    · exact not_mem_fmtFixed (by decide) (by decide) (by decide) 2 f hm
  · revert hm; decide

theorem backslash_not_mem_vibAtomLine (a : TsViewer.Atom) (disp : Vec3)
    (hsym : '\\' ∉ a.symbol) : '\\' ∉ TsViewer.vibAtomLine a disp := by
  unfold TsViewer.vibAtomLine
  intro hm
  have hx := not_mem_fmtFixed (c := '\\') (by decide) (by decide) (by decide)
  rcases List.mem_append.mp hm with hm | hm
  · rcases List.mem_append.mp hm with hm | hm
    · rcases List.mem_append.mp hm with hm | hm
      · exact not_mem_atomLine a hsym (by decide) (by decide) (by decide) (by decide) hm
      · rcases List.mem_cons.mp hm with hm | hm
        · exact absurd hm (by decide)
        · rcases List.mem_cons.mp hm with hm | hm
          · exact absurd hm (by decide)
          · rcases List.mem_cons.mp hm with hm | hm
            · exact absurd hm (by decide)
            · exact hx 6 disp.1 hm
    · rcases List.mem_cons.mp hm with hm | hm
      · exact absurd hm (by decide)
      · exact hx 6 disp.2.1 hm
  · rcases List.mem_cons.mp hm with hm | hm
    · exact absurd hm (by decide)
    · exact hx 6 disp.2.2 hm

theorem backslash_not_mem_vibFrameLines (atoms : List TsViewer.Atom)
    (mode : List Vec3) (hsym : ∀ a ∈ atoms, '\\' ∉ a.symbol) :
    ∀ s ∈ TsViewer.vibFrameLines atoms mode, '\\' ∉ s := by
  intro s hs
  unfold TsViewer.vibFrameLines at hs
  obtain ⟨j, _, rfl⟩ := List.mem_map.mp hs
  apply backslash_not_mem_vibAtomLine
  cases hj : atoms[j]? with
  | none => simp [hj]
  | some a =>
    simp only [hj, Option.getD_some]
    exact hsym a (List.getElem?_mem hj)

theorem backslash_not_mem_atoms_to_xyz (atoms : List TsViewer.Atom)
    (comment : List Char) (hsym : ∀ a ∈ atoms, '\\' ∉ a.symbol)
    (hcom : '\\' ∉ comment) : '\\' ∉ TsViewer.atoms_to_xyz atoms comment := by
  unfold TsViewer.atoms_to_xyz
  apply not_mem_joinNl (by decide)
  intro s hs
  rcases List.mem_cons.mp hs with hs | hs
  · subst hs
    exact not_mem_natToChars (by decide) _
  · rcases List.mem_cons.mp hs with hs | hs
    · subst hs
      exact hcom
    · obtain ⟨a, ha, rfl⟩ := List.mem_map.mp hs
      exact not_mem_atomLine a (hsym a ha) (by decide) (by decide) (by decide) (by decide)

/-- The base-structure load script never contains a newline, and contains
no backslash when the underlying XYZ block has none. -/
theorem ts_script_chars (xyz : List Char) :
    '\n' ∉ TsViewer.xyz_to_jsmol_data_script xyz ∧
    ('\\' ∉ xyz → '\\' ∉ TsViewer.xyz_to_jsmol_data_script xyz) := by
  unfold TsViewer.xyz_to_jsmol_data_script
  constructor
  · intro hm
    rcases List.mem_append.mp hm with hm | hm
    · rcases List.mem_append.mp hm with hm | hm
      · revert hm; decide
      · exact newline_not_mem_stripNl xyz hm
    · revert hm; decide
  · intro hbs hm
    rcases List.mem_append.mp hm with hm | hm
    · rcases List.mem_append.mp hm with hm | hm
      · revert hm; decide
      · exact not_mem_replaceChar hbs (by decide) hm
    · revert hm; decide

/-- Same for the structure_viewer variant of the load script. -/
theorem sv_script_chars (xyz : List Char) :
    '\n' ∉ StructureViewer.xyz_to_jsmol_data_script xyz ∧
    ('\\' ∉ xyz → '\\' ∉ StructureViewer.xyz_to_jsmol_data_script xyz) := by
  unfold StructureViewer.xyz_to_jsmol_data_script
  constructor
  · intro hm
    rcases List.mem_append.mp hm with hm | hm
    · rcases List.mem_append.mp hm with hm | hm
      · revert hm; decide
      · exact newline_not_mem_stripNl xyz hm
    · revert hm; decide
  · intro hbs hm
    rcases List.mem_append.mp hm with hm | hm
    · rcases List.mem_append.mp hm with hm | hm
      · revert hm; decide
      · exact not_mem_replaceChar hbs (by decide) hm
    · revert hm; decide

/-- The vibration load script never contains a newline, and contains no
backslash when the element symbols have none. -/
theorem vib_script_chars (atoms : List TsViewer.Atom) (frequencies : List ℚ)
    (modes : List (List Vec3)) (hsym : ∀ a ∈ atoms, '\\' ∉ a.symbol) :
    ∀ s, TsViewer.create_jsmol_vibration_script atoms frequencies modes = some s →
      '\n' ∉ s ∧ '\\' ∉ s := by
  intro s hs
  unfold TsViewer.create_jsmol_vibration_script at hs
  by_cases hcond : frequencies = [] ∨ modes = []
  · rw [if_pos hcond] at hs
    exact absurd hs (by simp)
  · rw [if_neg hcond] at hs
    have hs2 := (Option.some_inj.mp hs).symm
    subst hs2
    refine ⟨newline_not_mem_stripNl _, ?_⟩
    apply not_mem_replaceChar ?_ (by decide)
    apply not_mem_joinNl (by decide)
    intro t ht
    rcases List.mem_cons.mp ht with ht | ht
    · subst ht
      decide
    · rcases List.mem_append.mp ht with ht | ht
      · obtain ⟨fm, _, hfm⟩ := List.mem_flatMap.mp ht
        rcases List.mem_cons.mp hfm with ht2 | ht2
        · subst ht2
          exact not_mem_natToChars (by decide) _
        · rcases List.mem_cons.mp ht2 with ht3 | ht3
          · subst ht3
            exact backslash_not_mem_freqLine _
          · exact backslash_not_mem_vibFrameLines atoms fm.2 hsym t ht3
      · rcases List.mem_cons.mp ht with ht | ht
        · subst ht
          decide
        · simp at ht

/-- The double-quote pass removes every quote and the apostrophe pass
reintroduces none. -/
theorem quote_not_mem_escJs (s : List Char) : '"' ∉ TsViewer.escJs s :=
  not_mem_replaceChar (target_not_mem_replaceChar (by decide)) (by decide)

theorem newline_not_mem_escJs {s : List Char} (h : '\n' ∉ s) :
    '\n' ∉ TsViewer.escJs s :=
  not_mem_replaceChar (not_mem_replaceChar h (by decide)) (by decide)

/-- After the apostrophe pass over a backslash-free string, every
apostrophe is immediately preceded by a backslash. -/
theorem noRawApos_aposPass : ∀ t : List Char, '\\' ∉ t →
    noRawApos (replaceChar '\'' ['\\', '\''] t) = true := by
  intro t
  induction t with
  | nil => intro _; rfl
  | cons c r ih =>
    intro hbs
    have hc : c ≠ '\\' := fun h => hbs (by simp [h])
    have hr : '\\' ∉ r := fun h => hbs (by simp [h])
    by_cases hq : c = '\''
    · subst hq
      show noRawApos ('\\' :: '\'' :: replaceChar '\'' ['\\', '\''] r) = true
      rw [show noRawApos ('\\' :: '\'' :: replaceChar '\'' ['\\', '\''] r)
            = noRawApos (replaceChar '\'' ['\\', '\''] r) from rfl]
      exact ih hr
    · show noRawApos ((if c = '\'' then ['\\', '\''] else [c]) ++ _) = true
      rw [if_neg hq]
      simp only [List.cons_append, List.nil_append]
      cases hrep : replaceChar '\'' ['\\', '\''] r with
      | nil =>
        rw [noRawApos.eq_2, if_neg hc, if_neg hq]
        rfl
      | cons d t =>
        rw [noRawApos.eq_3, if_neg hc, if_neg hq, ← hrep]
        exact ih hr

theorem noRawApos_escJs {s : List Char} (h : '\\' ∉ s) :
    noRawApos (TsViewer.escJs s) = true :=
  noRawApos_aposPass _ (not_mem_replaceChar h (by decide))

/-- Bounds on the code of a hexadecimal digit character: a decimal digit
or a lowercase `a`–`f`. -/
theorem hexDigit_toNat (n : Nat) :
    (48 ≤ (hexDigit n).toNat ∧ (hexDigit n).toNat ≤ 57) ∨
    (97 ≤ (hexDigit n).toNat ∧ (hexDigit n).toNat ≤ 102) := by
  unfold hexDigit
  set k := n % 16 with hk
  have hklt : k < 16 := hk ▸ Nat.mod_lt _ (by omega)
  interval_cases k <;> decide

theorem hexDigit_ne (n : Nat) :
    hexDigit n ≠ '\\' ∧ hexDigit n ≠ '"' ∧ hexDigit n ≠ '\n' := by
  rcases hexDigit_toNat n with h | h <;>
    refine ⟨?_, ?_, ?_⟩ <;>
      intro he <;> rw [he] at h <;> exact absurd h (by decide)

theorem noRawQuote_cons {c : Char} (hbs : c ≠ '\\') (hq : c ≠ '"') (l : List Char) :
    noRawQuote (c :: l) = noRawQuote l := by
  cases l with
  | nil => rw [noRawQuote.eq_2, if_neg hbs, if_neg hq]
  | cons d t => rw [noRawQuote.eq_3, if_neg hbs, if_neg hq]

theorem noRawQuote_esc (d : Char) (l : List Char) :
    noRawQuote ('\\' :: d :: l) = noRawQuote l := rfl

/-- Every double quote in a JSON-escaped string body is itself escaped. -/
theorem noRawQuote_jsonEscape (s : List Char) : noRawQuote (jsonEscape s) = true := by
  induction s with
  | nil => rfl
  | cons c s ih =>
    show noRawQuote (jsonEscapeChar c ++ jsonEscape s) = true
    unfold jsonEscapeChar
    split_ifs with h1 h2 h3 h4 h5 h6 h7 h8
    · simp only [List.cons_append, List.nil_append]
      rw [noRawQuote_esc]
      exact ih
    · simp only [List.cons_append, List.nil_append]
      rw [noRawQuote_esc]
      exact ih
    · simp only [List.cons_append, List.nil_append]
      rw [noRawQuote_esc]
      exact ih
    · simp only [List.cons_append, List.nil_append]
      rw [noRawQuote_esc]
      exact ih
    · simp only [List.cons_append, List.nil_append]
      rw [noRawQuote_esc]
      exact ih
    · simp only [List.cons_append, List.nil_append]
      rw [noRawQuote_esc]
      exact ih
    · simp only [List.cons_append, List.nil_append]
      rw [noRawQuote_esc]
      exact ih
    · simp only [List.cons_append, List.nil_append]
      rw [noRawQuote_esc]
      rw [noRawQuote_cons (hexDigit_ne _).1 (hexDigit_ne _).2.1]
      rw [noRawQuote_cons (hexDigit_ne _).1 (hexDigit_ne _).2.1]
      rw [noRawQuote_cons (hexDigit_ne _).1 (hexDigit_ne _).2.1]
      rw [noRawQuote_cons (hexDigit_ne _).1 (hexDigit_ne _).2.1]
      exact ih
    · simp only [List.singleton_append]
      rw [noRawQuote_cons h2 h1]
      exact ih

/-- No raw newline survives JSON escaping. -/
theorem newline_not_mem_jsonEscapeChar (x : Char) : '\n' ∉ jsonEscapeChar x := by
  unfold jsonEscapeChar
  split_ifs with h1 h2 h3 h4 h5 h6 h7 h8
  · decide
  · decide
  · decide
  · decide
  · decide
  · decide
  · decide
  · intro hm
    rcases List.mem_cons.mp hm with hm | hm
    · exact absurd hm (by decide)
    · rcases List.mem_cons.mp hm with hm | hm
      · exact absurd hm (by decide)
      · rcases List.mem_cons.mp hm with hm | hm
        · exact absurd hm.symm (hexDigit_ne _).2.2
        · rcases List.mem_cons.mp hm with hm | hm
          · exact absurd hm.symm (hexDigit_ne _).2.2
          · rcases List.mem_cons.mp hm with hm | hm
            · exact absurd hm.symm (hexDigit_ne _).2.2
            · rcases List.mem_cons.mp hm with hm | hm
              · exact absurd hm.symm (hexDigit_ne _).2.2
              · simp at hm
  · intro hm
    rcases List.mem_cons.mp hm with hm | hm
    · exact h3 hm.symm
    · simp at hm

theorem newline_not_mem_jsonEscape (s : List Char) : '\n' ∉ jsonEscape s := by
  intro hm
  obtain ⟨x, _, hx⟩ := List.mem_flatMap.mp hm
  exact newline_not_mem_jsonEscapeChar x hx

/-- C7 fails on the code: the script string embedded at
src/xyz_viewer.py line 116 for a one-hydrogen structure goes through
`json.dumps`, which leaves the apostrophes of `data 'model X'`
unescaped — the embedded string contains a raw apostrophe with no
backslash before it. -/
theorem claim_C7_counterexample :
    noRawApos (XyzViewer.embeddedScript "min_xyz/a.xyz".toList
      [⟨"H".toList, 0, 0, 0⟩]) = false := by
  decide

/-- C7 (amended): the script strings ts_viewer and structure_viewer
place inside the quoted script-host attribute contain no raw newline
(each newline of the encoded block became `|`), no double-quote
character at all (each became `&quot;`), and no unescaped apostrophe;
xyz_viewer instead embeds its script through `json.dumps`, whose output
contains no raw newline and whose body contains no unescaped double
quote, but whose apostrophes are left unescaped. -/
theorem claim_C7_amended (title : List Char) (atoms : List TsViewer.Atom)
    (frequencies : List ℚ) (modes : List (List Vec3)) (xyz : List Char)
    (hsym : ∀ a ∈ atoms, '\\' ∉ a.symbol) (htitle : '\\' ∉ title)
    (hxyz : '\\' ∉ xyz) :
    ('\n' ∉ TsViewer.esc_base title atoms ∧
     '"' ∉ TsViewer.esc_base title atoms ∧
     noRawApos (TsViewer.esc_base title atoms) = true) ∧
    ('\n' ∉ TsViewer.esc_vibr atoms frequencies modes ∧
     '"' ∉ TsViewer.esc_vibr atoms frequencies modes ∧
     noRawApos (TsViewer.esc_vibr atoms frequencies modes) = true) ∧
    ('\n' ∉ StructureViewer.escaped_jscript (StructureViewer.xyz_to_jsmol_data_script xyz) ∧
     '"' ∉ StructureViewer.escaped_jscript (StructureViewer.xyz_to_jsmol_data_script xyz) ∧
     noRawApos (StructureViewer.escaped_jscript
       (StructureViewer.xyz_to_jsmol_data_script xyz)) = true) ∧
    (∀ (rel_path : List Char) (ratoms : List TsViewer.Atom),
      '\n' ∉ XyzViewer.embeddedScript rel_path ratoms ∧
      noRawQuote (jsonEscape (XyzViewer.xyz_to_jsmol_data_script
        (XyzViewer.atoms_to_xyz ratoms (htmlEscape rel_path)))) = true) := by
  refine ⟨?_, ?_, ?_, ?_⟩
  · have hscript := ts_script_chars (TsViewer.atoms_to_xyz atoms title)
    have hbs := hscript.2 (backslash_not_mem_atoms_to_xyz atoms title hsym htitle)
    exact ⟨newline_not_mem_escJs hscript.1, quote_not_mem_escJs _, noRawApos_escJs hbs⟩
  · unfold TsViewer.esc_vibr
    by_cases hlen : 0 < frequencies.length
    · rw [if_pos hlen]
      cases hcr : TsViewer.create_jsmol_vibration_script atoms frequencies modes with
      | none =>
        simp only [Option.getD_none]
        exact ⟨newline_not_mem_escJs (List.not_mem_nil _), quote_not_mem_escJs _,
          noRawApos_escJs (List.not_mem_nil _)⟩
      | some s =>
        simp only [Option.getD_some]
        obtain ⟨hn, hb⟩ := vib_script_chars atoms frequencies modes hsym s hcr
        exact ⟨newline_not_mem_escJs hn, quote_not_mem_escJs _, noRawApos_escJs hb⟩
    · rw [if_neg hlen]
      exact ⟨List.not_mem_nil _, List.not_mem_nil _, rfl⟩
  · have hscript := sv_script_chars xyz
    have hbs := hscript.2 hxyz
    exact ⟨newline_not_mem_escJs hscript.1, quote_not_mem_escJs _, noRawApos_escJs hbs⟩
  · intro rel_path ratoms
    constructor
    · unfold XyzViewer.embeddedScript jsonDumps
      intro hm
      rcases List.mem_cons.mp hm with hm | hm
      · exact absurd hm (by decide)
      · rcases List.mem_append.mp hm with hm | hm
        · exact newline_not_mem_jsonEscape _ hm
        · revert hm; decide
    · exact noRawQuote_jsonEscape _

/-- Witness for C7 (amended) on a one-hydrogen card. -/
theorem claim_C7_amended_witness :
    noRawApos (TsViewer.esc_base "t.log".toList [⟨"H".toList, 0, 0, 0⟩]) = true :=
  ((claim_C7_amended "t.log".toList [⟨"H".toList, 0, 0, 0⟩] [] [] []
    (by decide) (by decide) (by decide)).1).2.2

/-! ### Supporting lemmas about natural-order sorting -/

theorem isDigit_of_toNat {c : Char} (h1 : 48 ≤ c.toNat) (h2 : c.toNat ≤ 57) :
    c.isDigit = true := by
  unfold Char.isDigit
  simp only [Bool.and_eq_true, decide_eq_true_eq, Char.le_def, UInt32.le_def,
    BitVec.le_def]
  constructor
  · show (48 : UInt32).toBitVec.toNat ≤ _
    simpa using h1
  · show _ ≤ (57 : UInt32).toBitVec.toNat
    simpa using h2

theorem natToChars_isDigit (n : Nat) : ∀ c ∈ natToChars n, c.isDigit = true := by
  intro c hc
  obtain ⟨h1, h2⟩ := mem_natToChars_digit n c hc
  exact isDigit_of_toNat h1 h2

theorem basenameOf_no_slash (p : List Char) (h : '/' ∉ p) :
    XyzViewer.basenameOf p = p := by
  unfold XyzViewer.basenameOf
  rw [List.takeWhile_eq_self_iff.mpr ?_, List.reverse_reverse]
  intro c hc
  simp only [List.mem_reverse] at hc
  have hcne : c ≠ '/' := fun he => h (he ▸ hc)
  simpa using hcne

theorem textSpan_eq : ∀ (t r : List Char), (∀ c ∈ t, c.isDigit = false) →
    (∀ c t2, r = c :: t2 → c.isDigit = true) →
    XyzViewer.textSpan (t ++ r) = (t, r) := by
  intro t
  induction t with
  | nil =>
    intro r _ hr
    cases r with
    | nil => rfl
    | cons c t2 =>
      show XyzViewer.textSpan (c :: t2) = ([], c :: t2)
      unfold XyzViewer.textSpan
      rw [if_pos (hr c t2 rfl)]
  | cons c t' ih =>
    intro r ht hr
    have hc : c.isDigit = false := ht c (by simp)
    show XyzViewer.textSpan (c :: (t' ++ r)) = (c :: t', r)
    unfold XyzViewer.textSpan
    rw [if_neg (by simp [hc])]
    simp [ih r (fun x hx => ht x (by simp [hx])) hr]

theorem digitSpan_eq : ∀ (d r : List Char), (∀ c ∈ d, c.isDigit = true) →
    (∀ c t2, r = c :: t2 → c.isDigit = false) →
    XyzViewer.digitSpan (d ++ r) = (d, r) := by
  intro d
  induction d with
  | nil =>
    intro r _ hr
    cases r with
    | nil => rfl
    | cons c t2 =>
      show XyzViewer.digitSpan (c :: t2) = ([], c :: t2)
      unfold XyzViewer.digitSpan
      rw [if_neg (by simp [hr c t2 rfl])]
  | cons c d' ih =>
    intro r hd hr
    have hc : c.isDigit = true := hd c (by simp)
    show XyzViewer.digitSpan (c :: (d' ++ r)) = (c :: d', r)
    unfold XyzViewer.digitSpan
    rw [if_pos hc]
    simp [ih r (fun x hx => hd x (by simp [hx])) hr]

/-- A chunk of pure text produces a single lowercased string key. -/
theorem chunksAux_text (fuel : Nat) (t : List Char)
    (ht : ∀ c ∈ t, c.isDigit = false) :
    XyzViewer.chunksAux (fuel + 1) t = [XyzViewer.NKey.str (t.map Char.toLower)] := by
  have hts : XyzViewer.textSpan t = (t, []) := by
    have := textSpan_eq t [] ht (by intro c t2 hcontra; cases hcontra)
    simpa using this
  simp [XyzViewer.chunksAux, hts]

/-- The natural key of `s<digits of m>.xyz` is the three-chunk key with
the digit run read back as the integer `m`. -/
theorem natural_key_sNx (m : Nat) :
    XyzViewer.natural_key ("s".toList ++ (natToChars m ++ ".xyz".toList))
      = [XyzViewer.NKey.str "s".toList, XyzViewer.NKey.num m,
         XyzViewer.NKey.str ".xyz".toList] := by
  obtain ⟨d0, drest, hd⟩ := List.exists_cons_of_ne_nil (natToChars_ne_nil m)
  have hd0 : d0.isDigit = true := natToChars_isDigit m d0 (by rw [hd]; simp)
  have hnoslash : '/' ∉ "s".toList ++ (natToChars m ++ ".xyz".toList) := by
    intro hm
    rcases List.mem_append.mp hm with hm | hm
    · revert hm; decide
    · rcases List.mem_append.mp hm with hm | hm
      · exact not_mem_natToChars (by decide) m hm
      · revert hm; decide
  unfold XyzViewer.natural_key
  rw [basenameOf_no_slash _ hnoslash]
  have hts : XyzViewer.textSpan ("s".toList ++ (natToChars m ++ ".xyz".toList))
      = ("s".toList, natToChars m ++ ".xyz".toList) := by
    apply textSpan_eq
    · intro c hc
      simp at hc
      subst hc
      decide
    · intro c t2 heq
      rw [hd, List.cons_append] at heq
      injection heq with h1 _
      exact h1 ▸ hd0
  have hds : XyzViewer.digitSpan (natToChars m ++ ".xyz".toList)
      = (natToChars m, ".xyz".toList) := by
    apply digitSpan_eq
    · exact natToChars_isDigit m
    · intro c t2 heq
      have : c = '.' := by
        have := congrArg (fun l => l.headI) heq
        simpa using this.symm
      subst this
      decide
  simp only [XyzViewer.chunksAux, hts]
  rw [hd, List.cons_append]
  simp only [← List.cons_append, ← hd, hds]
  have hxyz : XyzViewer.textSpan ".xyz".toList = (".xyz".toList, []) := by decide
  simp only [hxyz]
  rw [decimalValue_natToChars]
  have h1 : ("s".toList : List Char).map Char.toLower = "s".toList := by decide
  have h2 : (".xyz".toList : List Char).map Char.toLower = ".xyz".toList := by decide
  rw [h1, h2]

/-- Numeric chunks at the same key position compare as integers. -/
theorem keyLt_sNx {m n : Nat} (h : m < n) :
    XyzViewer.keyLt
        (XyzViewer.natural_key ("s".toList ++ (natToChars m ++ ".xyz".toList)))
        (XyzViewer.natural_key ("s".toList ++ (natToChars n ++ ".xyz".toList)))
      = true := by
  rw [natural_key_sNx, natural_key_sNx]
  have h1 : XyzViewer.nkeyLt (XyzViewer.NKey.str "s".toList)
      (XyzViewer.NKey.str "s".toList) = false := by decide
  simp [XyzViewer.keyLt, XyzViewer.nkeyLt, h1, h]

/-- C8: coordinate files are ordered by the natural key: the scenario
`s2.xyz, s10.xyz, s1.xyz` sorts to `s1, s2, s10` (not the lexicographic
`s1, s10, s2`), and in general two basenames differing in their digit
run compare by the integer value of that run. -/
theorem claim_C8_natural_order :
    (XyzViewer.sortedByNaturalKey
        ["min_xyz/s2.xyz".toList, "min_xyz/s10.xyz".toList, "min_xyz/s1.xyz".toList]
      = ["min_xyz/s1.xyz".toList, "min_xyz/s2.xyz".toList, "min_xyz/s10.xyz".toList]) ∧
    ∀ m n : Nat, m < n →
      XyzViewer.keyLt
          (XyzViewer.natural_key ("s".toList ++ (natToChars m ++ ".xyz".toList)))
          (XyzViewer.natural_key ("s".toList ++ (natToChars n ++ ".xyz".toList)))
        = true :=
  ⟨by decide, fun _ _ h => keyLt_sNx h⟩

/-- Witness for C8: 10 sorts after 9, not before it. -/
theorem claim_C8_natural_order_witness :
    XyzViewer.keyLt
        (XyzViewer.natural_key ("s".toList ++ (natToChars 9 ++ ".xyz".toList)))
        (XyzViewer.natural_key ("s".toList ++ (natToChars 10 ++ ".xyz".toList)))
      = true :=
  claim_C8_natural_order.2 9 10 (by omega)

end GeomVis
